import Mathlib

/-!
Shallow embedding of the NormalDB core normalization engine
(`FunctionalDependency.js`, `CandidateKeyFinder.js`, `NormalFormChecker.js`,
`SchemaDecomposer.js`) and verification of the specification claims.

JavaScript data model mapping:
* a row object is a `List (String × String)` (insertion-ordered keys);
  `row[attr]` is `lookupRow`, giving `none` for a missing key (JS `undefined`);
* a JS `Set` is an insertion-ordered duplicate-free list, built by
  `jsSetInsert` / `jsSetOfList`;
* JS floating-point results of the confidence computation are modelled by
  `JSVal` (`num q`, `nan`, `inf`, `ninf`): all numbers reached here are exact
  rationals, and `0/0 = NaN`, `k/0 = Infinity` as in JS.
-/

/-- One JS row object: association list from attribute name to scalar value. -/
abbrev Row := List (String × String)

/-- JS `row[attr]`: `none` models `undefined`. -/
def lookupRow (row : Row) (attr : String) : Option String :=
  (row.find? (fun kv => kv.1 = attr)).map (fun kv => kv.2)

/-- JS number resulting from the confidence computation. -/
inductive JSVal where
  | num (q : ℚ)
  | nan
  | inf
  | ninf
deriving DecidableEq

/-- JS division of two nonnegative integers: `0/0 = NaN`, `k/0 = Infinity`. -/
def jsDivNat (a b : ℕ) : JSVal :=
  if b = 0 then (if a = 0 then JSVal.nan else JSVal.inf)
  else JSVal.num ((a : ℚ) / (b : ℚ))

/-- JS subtraction on `JSVal`. -/
def jsSub : JSVal → JSVal → JSVal
  | JSVal.num a, JSVal.num b => JSVal.num (a - b)
  | JSVal.nan, _ => JSVal.nan
  | _, JSVal.nan => JSVal.nan
  | JSVal.num _, JSVal.inf => JSVal.ninf
  | JSVal.num _, JSVal.ninf => JSVal.inf
  | JSVal.inf, JSVal.num _ => JSVal.inf
  | JSVal.inf, JSVal.inf => JSVal.nan
  | JSVal.inf, JSVal.ninf => JSVal.inf
  | JSVal.ninf, JSVal.num _ => JSVal.ninf
  | JSVal.ninf, JSVal.inf => JSVal.ninf
  | JSVal.ninf, JSVal.ninf => JSVal.nan

/-- JS `x >= t` for a `JSVal` against a rational threshold (`NaN >= t` is false). -/
def jsGe (c : JSVal) (t : ℚ) : Bool :=
  match c with
  | JSVal.num q => decide (t ≤ q)
  | JSVal.inf => true
  | JSVal.nan => false
  | JSVal.ninf => false

/-- A discovered functional dependency `{ lhs, rhs, confidence }`. -/
structure FD where
  lhs : List String
  rhs : String
  confidence : JSVal
deriving DecidableEq

/-- Result record of `testFD`: `{ holds, confidence, violations }`. -/
structure FDResult where
  holds : Bool
  confidence : JSVal
  violations : ℕ
deriving DecidableEq

/-- JS `Set.add`: append the element unless already present. -/
def jsSetInsert (l : List String) (a : String) : List String :=
  if a ∈ l then l else l ++ [a]

/-- JS `new Set(list)` rendered back as its insertion-ordered element list. -/
def jsSetOfList (l : List String) : List String :=
  l.foldl jsSetInsert []

/-- One step of the row-grouping loop of `testFD`: `groups` is a JS `Map` from
the joined lhs key to the `Set` of rhs values seen (rhs values are JS values,
so a missing attribute is the distinct value `undefined = none`). -/
def addToGroups (gs : List (String × List (Option String))) (k : String)
    (v : Option String) : List (String × List (Option String)) :=
  if gs.any (fun p => p.1 = k) then
    gs.map (fun p => if p.1 = k then (p.1, if v ∈ p.2 then p.2 else p.2 ++ [v]) else p)
  else gs ++ [(k, [v])]

/-- `FunctionalDependency.testFD(lhs, rhs)`: group rows by
`lhs.map(attr => row[attr]).join('|')`, count violations
(`distinct rhs values − 1` per group), `confidence = 1 − violations/rowCount`,
holds iff `confidence >= threshold`. -/
def testFD (data : List Row) (threshold : ℚ) (lhs : List String) (rhs : String) :
    FDResult :=
  let groups := data.foldl (fun gs row =>
    addToGroups gs
      (String.intercalate "|" (lhs.map (fun attr => (lookupRow row attr).getD "")))
      (lookupRow row rhs)) []
  let violations := groups.foldl
    (fun n p => if p.2.length > 1 then n + (p.2.length - 1) else n) 0
  let confidence := jsSub (JSVal.num 1) (jsDivNat violations data.length)
  ⟨jsGe confidence threshold, confidence, violations⟩

/-- `FunctionalDependency.removeRedundant`: drop an FD when another FD with the
same rhs has a strictly smaller lhs that is a subset of its lhs. -/
def removeRedundant (fds : List FD) : List FD :=
  fds.filter (fun fd => !(fds.any (fun other =>
    decide (other ≠ fd) && decide (other.rhs = fd.rhs) &&
    other.lhs.all (fun a => decide (a ∈ fd.lhs)) &&
    decide (other.lhs.length < fd.lhs.length))))

/-- All unordered pairs `[attrs[i], attrs[j]]` with `i < j`, in source order. -/
def pairsOf : List String → List (List String)
  | [] => []
  | a :: as => as.map (fun b => [a, b]) ++ pairsOf as

/-- `FunctionalDependency.detectAll()`: for each attribute as rhs, test every
other single attribute as lhs, then (when the attribute count is at most 15)
every unordered pair not containing the rhs; keep FDs that hold and remove
redundant ones. The attribute list is `Object.keys(data[0] || {})`. -/
def detectAll (data : List Row) (threshold : ℚ) : List FD :=
  let attributes := (data.headD []).map Prod.fst
  let fds := (attributes.map (fun rhs =>
    (attributes.filterMap (fun l =>
      if l ≠ rhs then
        let r := testFD data threshold [l] rhs
        if r.holds then some ⟨[l], rhs, r.confidence⟩ else none
      else none)) ++
    (if attributes.length ≤ 15 then
      (pairsOf attributes).filterMap (fun lhs =>
        if rhs ∉ lhs then
          let r := testFD data threshold lhs rhs
          if r.holds then some ⟨lhs, rhs, r.confidence⟩ else none
        else none)
     else []))).flatten
  removeRedundant fds

/-- One FD pass of the closure loop body:
`if (fd.lhs.every(attr => closure.has(attr)) && !closure.has(fd.rhs)) add rhs`. -/
def closureStep1 (acc : List String) (fd : FD) : List String :=
  if fd.lhs.all (fun a => decide (a ∈ acc)) && !(decide (fd.rhs ∈ acc))
  then acc ++ [fd.rhs] else acc

/-- One full pass of the `while (changed)` loop over the FD list. -/
def closureStep (fds : List FD) (clo : List String) : List String :=
  fds.foldl closureStep1 clo

/-- The `while (changed)` loop: repeat passes until a pass adds nothing.
Fuel `fds.length + 1` suffices because each productive pass adds at least one
rhs and at most `fds.length` distinct rhs values exist. -/
def computeClosureAux (fds : List FD) : ℕ → List String → List String
  | 0, clo => clo
  | n + 1, clo =>
    let clo' := closureStep fds clo
    if clo'.length = clo.length then clo else computeClosureAux fds n clo'

/-- `FunctionalDependency.computeClosure(attributes, allAttributes, fds)`:
iterated fixpoint starting from `new Set(attributes)`.  The `allAttributes`
argument is accepted but never read by the source. -/
def computeClosure (attributes allAttributes : List String) (fds : List FD) :
    List String :=
  computeClosureAux fds (fds.length + 1) (jsSetOfList attributes)

/-- `CandidateKeyFinder.findMustIncludeAttributes()`: attributes never appearing
as the rhs of any FD. -/
def findMustIncludeAttributes (attributes : List String) (fds : List FD) :
    List String :=
  attributes.filter (fun attr => !(decide (attr ∈ fds.map FD.rhs)))

/-- `CandidateKeyFinder.isSuperkey(attributeSet)`: the closure's length equals
the attribute count. -/
def isSuperkey (attributes : List String) (fds : List FD)
    (attributeSet : List String) : Bool :=
  decide ((computeClosure attributeSet attributes fds).length = attributes.length)

/-- `CandidateKeyFinder.isMinimal(superkey)`: removing any single attribute
breaks the superkey property. -/
def isMinimal (attributes : List String) (fds : List FD)
    (superkey : List String) : Bool :=
  superkey.all (fun attr =>
    !(isSuperkey attributes fds (superkey.filter (fun a => decide (a ≠ attr)))))

/-- `CandidateKeyFinder.generateCombinations(arr, k)` in backtracking order. -/
def generateCombinations : List String → ℕ → List (List String)
  | _, 0 => [[]]
  | [], _ + 1 => []
  | a :: as, k + 1 =>
    (generateCombinations as k).map (fun c => a :: c) ++ generateCombinations as (k + 1)

/-- The growing-size search loop of `findCandidateKeys` (step 3): for each
increment `k` over the `mustInclude` core, collect the combinations that give a
minimal superkey, stopping at the first size that yields any. -/
def sizeLoop (attributes : List String) (fds : List FD)
    (mustInclude otherAttrs : List String) : List ℕ → List (List String)
  | [] => []
  | k :: ks =>
    let found := ((generateCombinations otherAttrs k).filter (fun combo =>
      isSuperkey attributes fds (mustInclude ++ combo) &&
      isMinimal attributes fds (mustInclude ++ combo))).map
        (fun combo => mustInclude ++ combo)
    if found.isEmpty then sizeLoop attributes fds mustInclude otherAttrs ks
    else found

/-- `CandidateKeyFinder.findCandidateKeys()` up to (but excluding) the final
all-attributes fallback: the `mustInclude` short-circuit, then the bounded
size search from `|mustInclude|+1` up to `min(|attributes|, 4)`. -/
def findCandidateKeysPre (attributes : List String) (fds : List FD) :
    List (List String) :=
  let mustInclude := findMustIncludeAttributes attributes fds
  if isSuperkey attributes fds mustInclude then [mustInclude]
  else
    let otherAttrs := attributes.filter (fun a => !(decide (a ∈ mustInclude)))
    let maxSize := min attributes.length 4
    sizeLoop attributes fds mustInclude otherAttrs
      (List.range' 1 (maxSize - mustInclude.length))

/-- `CandidateKeyFinder.findCandidateKeys()`: the search result, or the entire
attribute list as an (untagged) fallback when the search finds nothing. -/
def findCandidateKeys (attributes : List String) (fds : List FD) :
    List (List String) :=
  let ks := findCandidateKeysPre attributes fds
  if ks.isEmpty then [attributes] else ks

/-- `NormalFormChecker.findPrimeAttributes()`: the `Set` union of all candidate
keys' attributes, in first-insertion order. -/
def findPrimeAttributes (candidateKeys : List (List String)) : List String :=
  candidateKeys.foldl (fun prime key => key.foldl jsSetInsert prime) []

/-- A scalar JS cell value, or a composite one (array / non-null object),
which is the 1NF violation signal. -/
inductive CellValue where
  | atomic (s : String)
  | composite
deriving DecidableEq

/-- The 1NF non-atomicity test `Array.isArray(value) || (typeof value ===
'object' && value !== null)`. -/
def isNonAtomic : CellValue → Bool
  | CellValue.atomic _ => false
  | CellValue.composite => true

/-- Result of `check1NF`: violations are plain message strings. -/
structure Check1Result where
  satisfied : Bool
  violations : List String
deriving DecidableEq

/-- A 2NF/3NF violation record `{ lhs, rhs, reason }`. -/
structure FDViolation where
  lhs : List String
  rhs : String
  reason : String
deriving DecidableEq

/-- Result of `check2NF` / `check3NF`. -/
structure CheckResult where
  satisfied : Bool
  violations : List FDViolation
deriving DecidableEq

/-- `NormalFormChecker.check1NF(sampleData)`: returns on the first cell holding
a composite value (early-exit semantics), else satisfied. -/
def check1NF (sampleData : List (List (String × CellValue))) : Check1Result :=
  match sampleData.findSome? (fun row =>
    (row.find? (fun kv => isNonAtomic kv.2)).map (fun kv => kv.1)) with
  | some k => ⟨false, ["Attribute " ++ k ++ " contains non-atomic value"]⟩
  | none => ⟨true, []⟩

/-- `NormalFormChecker.isPartialDependency(fd)`: rhs is non-prime and lhs is a
proper subset of some candidate key. -/
def isPartialDependencyC (primeAttributes : List String)
    (candidateKeys : List (List String)) (fd : FD) : Bool :=
  if fd.rhs ∈ primeAttributes then false
  else candidateKeys.any (fun key =>
    fd.lhs.all (fun attr => decide (attr ∈ key)) &&
    decide (fd.lhs.length < key.length))

/-- `NormalFormChecker.check2NF()`: flag every FD that is a partial dependency. -/
def check2NF (fds : List FD) (candidateKeys : List (List String)) : CheckResult :=
  let primeAttributes := findPrimeAttributes candidateKeys
  let violations := fds.filterMap (fun fd =>
    if isPartialDependencyC primeAttributes candidateKeys fd then
      some ⟨fd.lhs, fd.rhs,
        fd.rhs ++ " partially depends on " ++ String.intercalate ", " fd.lhs⟩
    else none)
  ⟨decide (violations.length = 0), violations⟩

/-- `NormalFormChecker.isTransitiveDependency(fd)`: every lhs attribute
non-prime, rhs non-prime, and lhs not equal (as a set of the same size) to any
candidate key. -/
def isTransitiveDependency (primeAttributes : List String)
    (candidateKeys : List (List String)) (fd : FD) : Bool :=
  let lhsNonPrime := fd.lhs.all (fun attr => !(decide (attr ∈ primeAttributes)))
  let rhsNonPrime := !(decide (fd.rhs ∈ primeAttributes))
  if !lhsNonPrime || !rhsNonPrime then false
  else !(candidateKeys.any (fun key =>
    decide (key.length = fd.lhs.length) &&
    key.all (fun attr => decide (attr ∈ fd.lhs))))

/-- `NormalFormChecker.check3NF()`: flag every FD that is a transitive
dependency. -/
def check3NF (fds : List FD) (candidateKeys : List (List String)) : CheckResult :=
  let primeAttributes := findPrimeAttributes candidateKeys
  let violations := fds.filterMap (fun fd =>
    if isTransitiveDependency primeAttributes candidateKeys fd then
      some ⟨fd.lhs, fd.rhs,
        fd.rhs ++ " transitively depends on " ++ String.intercalate ", " fd.lhs⟩
    else none)
  ⟨decide (violations.length = 0), violations⟩

/-- The record returned by `analyzeAllForms`. -/
structure AnalysisResult where
  nf1 : Check1Result
  nf2 : CheckResult
  nf3 : CheckResult
  currentForm : String
deriving DecidableEq

/-- `NormalFormChecker.analyzeAllForms(sampleData)`: run all three checks and
report the highest form via the nested-if upgrade chain starting from `UNF`. -/
def analyzeAllForms (fds : List FD) (candidateKeys : List (List String))
    (sampleData : List (List (String × CellValue))) : AnalysisResult :=
  let r1 := check1NF sampleData
  let r2 := check2NF fds candidateKeys
  let r3 := check3NF fds candidateKeys
  ⟨r1, r2, r3,
    if r1.satisfied then
      if r2.satisfied then
        if r3.satisfied then "3NF" else "2NF"
      else "1NF"
    else "UNF"⟩

/-- The original schema handed to the decomposer: `{ tableName, attributes }`. -/
structure Schema where
  tableName : String
  attributes : List String
deriving DecidableEq

/-- A decomposed table `{ name, attributes, primaryKey, foreignKeys }`; the
primary key is `none` when the source reads `candidateKeys[0]` of an empty
list (JS `undefined`). -/
structure Table where
  name : String
  attributes : List String
  primaryKey : Option (List String)
  foreignKeys : List String
deriving DecidableEq

/-- A transformation log entry. -/
structure Transformation where
  ttype : String
  description : String
  changes : List String
deriving DecidableEq

/-- Return value of `decomposeTo2NF`. -/
structure DecompResult where
  tables : List Table
  transformations : List Transformation
deriving DecidableEq

/-- `SchemaDecomposer.getPrimeAttributes()`: same `Set` union as the checker's
`findPrimeAttributes`, duplicated in the source. -/
def getPrimeAttributes (candidateKeys : List (List String)) : List String :=
  candidateKeys.foldl (fun prime key => key.foldl jsSetInsert prime) []

/-- `SchemaDecomposer.isPartialDependency(fd)`: rhs non-prime and lhs a proper
subset of some candidate key (the decomposer's own copy of the predicate). -/
def isPartialDependencyD (primeAttributes : List String)
    (candidateKeys : List (List String)) (fd : FD) : Bool :=
  if !(decide (fd.rhs ∈ primeAttributes)) then
    candidateKeys.any (fun key =>
      fd.lhs.all (fun attr => decide (attr ∈ key)) &&
      decide (fd.lhs.length < key.length))
  else false

/-- Insert a string into an ascending list (helper for `sortStrings`). -/
def insertSorted (a : String) : List String → List String
  | [] => [a]
  | b :: bs => if a ≤ b then a :: b :: bs else b :: insertSorted a bs

/-- JS `Array.prototype.sort()` on strings: ascending lexicographic order. -/
def sortStrings : List String → List String
  | [] => []
  | a :: as => insertSorted a (sortStrings as)

/-- A grouped partial-dependency entry: the (sorted, in-place) determinant and
its accumulated rhs attributes. -/
structure DepGroup where
  lhs : List String
  rhs : List String
deriving DecidableEq

/-- One step of the `grouped` Map construction of `decomposeTo2NF`: key is
`fd.lhs.sort().join('|')`; a new entry stores the sorted lhs, an existing
entry has `fd.rhs` pushed onto its rhs list. -/
def addPartial (g : List (String × DepGroup)) (fd : FD) : List (String × DepGroup) :=
  let key := String.intercalate "|" (sortStrings fd.lhs)
  if g.any (fun p => p.1 = key) then
    g.map (fun p => if p.1 = key then (p.1, ⟨p.2.lhs, p.2.rhs ++ [fd.rhs]⟩) else p)
  else g ++ [(key, ⟨sortStrings fd.lhs, [fd.rhs]⟩)]

/-- The grouping of partial dependencies by identical sorted lhs. -/
def groupPartial (partDeps : List FD) : List (String × DepGroup) :=
  partDeps.foldl addPartial []

/-- Spawn one table per group: `name_i` (indices from 1), attributes
`[...lhs, ...rhs]`, primary key the group lhs. -/
def mkPartialTables (base : String) : ℕ → List (String × DepGroup) → List Table
  | _, [] => []
  | i, p :: rest =>
    ⟨base ++ "_" ++ toString i, p.2.lhs ++ p.2.rhs, some p.2.lhs, []⟩ ::
      mkPartialTables base (i + 1) rest

/-- `SchemaDecomposer.decomposeTo2NF()`: spawn a table per partial-dependency
group, remove the grouped rhs attributes from the main table (which keeps the
first candidate key as primary key), and log the transformations. -/
def decomposeTo2NF (schema : Schema) (fds : List FD)
    (candidateKeys : List (List String)) : DecompResult :=
  let primeAttributes := getPrimeAttributes candidateKeys
  let partDeps := fds.filter
    (fun fd => isPartialDependencyD primeAttributes candidateKeys fd)
  let grouped := groupPartial partDeps
  let spawned := mkPartialTables schema.tableName 1 grouped
  let removed := (grouped.map (fun p => p.2.rhs)).flatten
  let mainAttributes :=
    (jsSetOfList schema.attributes).filter (fun a => !(decide (a ∈ removed)))
  ⟨spawned ++ [⟨schema.tableName, mainAttributes, candidateKeys.head?, []⟩],
   [⟨"2NF", "Removed partial dependencies",
     partDeps.map (fun fd =>
       "Moved " ++ fd.rhs ++ " to separate table (depends on " ++
       String.intercalate ", " (sortStrings fd.lhs) ++ ")")⟩]⟩

/-! ## Concrete inputs used by the claims -/

/-- The spec's worked-example dataset. -/
def rowsC1 : List Row :=
  [[("Student", "A"), ("Course", "C1"), ("Room", "R1")],
   [("Student", "A"), ("Course", "C2"), ("Room", "R1")],
   [("Student", "B"), ("Course", "C1"), ("Room", "R2")]]

/-- First row of the separator-collision dataset: `a = "x|y"`, `b = "z"`. -/
def rowC3a : Row := [("a", "x|y"), ("b", "z"), ("c", "v1")]

/-- Second row of the separator-collision dataset: `a = "x"`, `b = "y|z"`. -/
def rowC3b : Row := [("a", "x"), ("b", "y|z"), ("c", "v2")]

/-- Six attributes whose only FDs relate `E` and `F`. -/
def attrs6 : List String := ["A", "B", "C", "D", "E", "F"]

/-- FDs `E → F` and `F → E`. -/
def fds6 : List FD := [⟨["E"], "F", JSVal.num 1⟩, ⟨["F"], "E", JSVal.num 1⟩]

/-- A single FD `A → C`. -/
def fds7 : List FD := [⟨["A"], "C", JSVal.num 1⟩]

/-- A single candidate key `{A, B}`. -/
def keys7 : List (List String) := [["A", "B"]]

/-- Original schema `T(A, B)`. -/
def sch9 : Schema := ⟨"T", ["A", "B"]⟩

/-- FDs `A → C` and `B → C`: two partial dependencies with the same rhs. -/
def fds9 : List FD := [⟨["A"], "C", JSVal.num 1⟩, ⟨["B"], "C", JSVal.num 1⟩]

/-- Spawned table for the `A → C` group. -/
def tbl9a : Table := ⟨"T_1", ["A", "C"], some ["A"], []⟩

/-- Spawned table for the `B → C` group. -/
def tbl9b : Table := ⟨"T_2", ["B", "C"], some ["B"], []⟩

/-- The remaining main table. -/
def tbl9main : Table := ⟨"T", ["A", "B"], some ["A", "B"], []⟩

/-- Original schema `T(A, B, C)` for the well-formed decomposition run. -/
def sch9w : Schema := ⟨"T", ["A", "B", "C"]⟩

/-! ## Claim theorems: concrete evaluations -/

/-- Claim C1 (counterexample): on the spec's worked example the pipeline does
not report a single candidate key (it reports two, because `detectAll` also
discovers `{Room} → Student` on this three-row dataset), and `check2NF` on the
pipeline's own FDs and keys is satisfied rather than flagging `Room`. -/
theorem c1_counterexample :
    (findCandidateKeys ["Student", "Course", "Room"]
      (detectAll rowsC1 (98/100))).length = 2 ∧
    (check2NF (detectAll rowsC1 (98/100))
      (findCandidateKeys ["Student", "Course", "Room"]
        (detectAll rowsC1 (98/100)))).satisfied = true := by
  constructor
  · with_unfolding_all rfl
  · with_unfolding_all rfl

/-- Claim C1 (amended): the pipeline's actual behaviour on the worked example:
`{Student} → Room` holds with confidence 1 and `{Student} → Course` fails with
confidence 2/3 as the spec says, but `detectAll` also finds `{Room} → Student`,
so `findCandidateKeys` reports the two keys `{Course, Student}` and
`{Course, Room}`, every attribute is prime, and `check2NF` is satisfied. -/
theorem c1_pipeline_actual :
    testFD rowsC1 (98/100) ["Student"] "Room" = ⟨true, JSVal.num 1, 0⟩ ∧
    testFD rowsC1 (98/100) ["Student"] "Course" = ⟨false, JSVal.num (2/3), 1⟩ ∧
    detectAll rowsC1 (98/100) =
      [⟨["Room"], "Student", JSVal.num 1⟩, ⟨["Student"], "Room", JSVal.num 1⟩] ∧
    findCandidateKeys ["Student", "Course", "Room"] (detectAll rowsC1 (98/100)) =
      [["Course", "Student"], ["Course", "Room"]] ∧
    check2NF (detectAll rowsC1 (98/100))
      (findCandidateKeys ["Student", "Course", "Room"]
        (detectAll rowsC1 (98/100))) = ⟨true, []⟩ := by
  refine ⟨by with_unfolding_all rfl, by with_unfolding_all rfl,
    by with_unfolding_all rfl, by with_unfolding_all rfl, by with_unfolding_all rfl⟩

/-- Claim C2: on a zero-row dataset `testFD` performs the division anyway and
returns a NaN confidence (`1 − 0/0`) with `holds = false`; no
`EmptyDatasetError` exists anywhere in the source to reject the input. -/
theorem c2_empty_dataset_nan (threshold : ℚ) (lhs : List String) (rhs : String) :
    testFD [] threshold lhs rhs = ⟨false, JSVal.nan, 0⟩ := rfl

/-- Claim C3: grouping uses the naive string key
`lhs.map(attr => row[attr]).join('|')`, so two rows whose lhs value tuples
differ (`("x|y", "z")` versus `("x", "y|z")`) produce the identical group key
`"x|y|z"`, collide into one group, and change the confidence to 1/2 where
distinct groups would give 1. -/
theorem c3_separator_collision :
    ["a", "b"].map (lookupRow rowC3a) ≠ ["a", "b"].map (lookupRow rowC3b) ∧
    String.intercalate "|" (["a", "b"].map (fun t => (lookupRow rowC3a t).getD ""))
      = String.intercalate "|" (["a", "b"].map (fun t => (lookupRow rowC3b t).getD "")) ∧
    testFD [rowC3a, rowC3b] (98/100) ["a", "b"] "c" =
      ⟨false, JSVal.num (1/2), 1⟩ := by
  refine ⟨by decide, rfl, by with_unfolding_all rfl⟩

/-- Claim C4 (counterexample): with six attributes and FDs `E → F`, `F → E`,
the search cap leaves no room above the four `mustInclude` attributes, so
`findCandidateKeys` returns the all-attributes fallback key; that returned key
violates the minimality law, since dropping `E` still leaves a superkey. -/
theorem c4_counterexample :
    findCandidateKeys attrs6 fds6 = [attrs6] ∧ "E" ∈ attrs6 ∧
    isSuperkey attrs6 fds6 (attrs6.filter (fun a => decide (a ≠ "E"))) = true := by
  refine ⟨rfl, by decide, rfl⟩

/-- Claim C5: the fallback key is not distinguishable from a discovered key in
the return value: on attributes `[A]` with no FDs the key `[A]` is genuinely
discovered (the pre-fallback search is nonempty), while on attributes `[A]`
with the FD `A → B` the same value `[[A]]` is returned by the fallback (the
pre-fallback search is empty) — the two return values are identical and carry
no tag. -/
theorem c5_fallback_indistinguishable :
    findCandidateKeys ["A"] [] = [["A"]] ∧
    findCandidateKeysPre ["A"] [] ≠ [] ∧
    findCandidateKeys ["A"] [⟨["A"], "B", JSVal.num 1⟩] = [["A"]] ∧
    findCandidateKeysPre ["A"] [⟨["A"], "B", JSVal.num 1⟩] = [] := by
  refine ⟨rfl, by decide, rfl, rfl⟩

/-- Claim C7 (counterexample): with FD `A → C` and candidate key `{A, B}`,
`check3NF` is satisfied (the lhs `A` is prime, so the FD is not transitive)
while `check2NF` is violated (`C` is non-prime and `{A}` is a proper subset of
the key), refuting `3NF satisfied ⇒ 2NF satisfied`. -/
theorem c7_counterexample :
    (check3NF fds7 keys7).satisfied = true ∧
    (check2NF fds7 keys7).satisfied = false := by
  refine ⟨rfl, rfl⟩

/-- Claim C9 (counterexample): on schema `T(A, B)` with key `{A, B}` and
partial dependencies `A → C`, `B → C`, the two spawned tables both contain
`C`, which lies in neither table's lhs key columns — and `C` is not even an
attribute of the original schema, so the union of the returned tables'
attributes differs from the original attribute set. -/
theorem c9_counterexample :
    (decomposeTo2NF sch9 fds9 [["A", "B"]]).tables = [tbl9a, tbl9b, tbl9main] ∧
    "C" ∈ tbl9a.attributes ∧ "C" ∈ tbl9b.attributes ∧
    "C" ∉ tbl9a.primaryKey.getD [] ∧ "C" ∉ tbl9b.primaryKey.getD [] ∧
    "C" ∉ sch9.attributes := by
  refine ⟨rfl, by decide, by decide, by decide, by decide, by decide⟩

/-- Claim C10: `computeClosure` never reads its `allAttributes` argument, so
the result is identical for any two values passed there; in particular the
closure is not truncated to `allAttributes`: from seed `[A]` with FD `A → B`
and `allAttributes = [A]` the result still contains the outside attribute `B`. -/
theorem c10_closure_ignores_allAttributes :
    (∀ (seed a1 a2 : List String) (fds : List FD),
      computeClosure seed a1 fds = computeClosure seed a2 fds) ∧
    computeClosure ["A"] ["A"] [⟨["A"], "B", JSVal.num 1⟩] = ["A", "B"] ∧
    "B" ∉ ["A"] := by
  refine ⟨fun _ _ _ _ => rfl, rfl, by decide⟩

/-! ## Lemmas: the JS Set model -/

theorem mem_jsSetInsert {l : List String} {a x : String} :
    x ∈ jsSetInsert l a ↔ x ∈ l ∨ x = a := by
  unfold jsSetInsert
  split
  · rename_i h
    constructor
    · exact Or.inl
    · rintro (hx | rfl)
      · exact hx
      · exact h
  · simp [List.mem_append]

theorem nodup_jsSetInsert {l : List String} {a : String} (h : l.Nodup) :
    (jsSetInsert l a).Nodup := by
  unfold jsSetInsert
  split
  · exact h
  · rename_i ha
    simp only [List.nodup_append, List.nodup_cons, List.nodup_nil]
    refine ⟨h, by simp, ?_⟩
    intro x hx hxa
    rw [List.mem_singleton] at hxa
    subst hxa
    exact ha hx

theorem mem_foldl_jsSetInsert {x : String} :
    ∀ {xs acc : List String}, x ∈ xs.foldl jsSetInsert acc ↔ x ∈ acc ∨ x ∈ xs := by
  intro xs
  induction xs with
  | nil => simp
  | cons a as ih =>
    intro acc
    rw [List.foldl_cons, ih, mem_jsSetInsert]
    simp [or_assoc]

theorem nodup_foldl_jsSetInsert :
    ∀ {xs acc : List String}, acc.Nodup → (xs.foldl jsSetInsert acc).Nodup := by
  intro xs
  induction xs with
  | nil => exact fun h => h
  | cons a as ih => exact fun h => ih (nodup_jsSetInsert h)

theorem mem_jsSetOfList {l : List String} {x : String} :
    x ∈ jsSetOfList l ↔ x ∈ l := by
  unfold jsSetOfList
  rw [mem_foldl_jsSetInsert]
  simp

theorem nodup_jsSetOfList (l : List String) : (jsSetOfList l).Nodup :=
  nodup_foldl_jsSetInsert List.nodup_nil

theorem foldl_jsSetInsert_of_disjoint :
    ∀ {xs acc : List String}, (∀ x ∈ xs, x ∉ acc) → xs.Nodup →
      xs.foldl jsSetInsert acc = acc ++ xs := by
  intro xs
  induction xs with
  | nil => simp
  | cons a as ih =>
    intro acc h hnd
    have ha : a ∉ acc := h a (by simp)
    rw [List.foldl_cons, show jsSetInsert acc a = acc ++ [a] from if_neg ha,
      ih ?_ (List.nodup_cons.mp hnd).2]
    · simp
    · intro x hx
      simp only [List.mem_append, List.mem_singleton]
      rintro (hx2 | rfl)
      · exact h x (by simp [hx]) hx2
      · exact (List.nodup_cons.mp hnd).1 hx

theorem jsSetOfList_eq_self {l : List String} (h : l.Nodup) : jsSetOfList l = l := by
  unfold jsSetOfList
  rw [foldl_jsSetInsert_of_disjoint (by simp) h]
  simp

/-! ## Lemmas: the closure iteration -/

theorem closureStep1_cases (acc : List String) (fd : FD) :
    closureStep1 acc fd = acc ∨
    (closureStep1 acc fd = acc ++ [fd.rhs] ∧ fd.rhs ∉ acc) := by
  unfold closureStep1
  split
  · rename_i h
    right
    refine ⟨rfl, ?_⟩
    have h2 := ((Bool.and_eq_true _ _).mp h).2
    simpa using h2
  · left; rfl

theorem closureStep_eq_append (fds : List FD) :
    ∀ acc, ∃ t, closureStep fds acc = acc ++ t ∧ t.Nodup ∧
      ∀ x ∈ t, x ∉ acc ∧ x ∈ fds.map FD.rhs := by
  induction fds with
  | nil => exact fun acc => ⟨[], by simp [closureStep]⟩
  | cons fd fds ih =>
    intro acc
    have hstep : closureStep (fd :: fds) acc = closureStep fds (closureStep1 acc fd) :=
      rfl
    rcases closureStep1_cases acc fd with h | ⟨h, hn⟩
    · obtain ⟨t, ht, htn, htm⟩ := ih acc
      refine ⟨t, by rw [hstep, h, ht], htn, fun x hx => ⟨(htm x hx).1, ?_⟩⟩
      simp only [List.map_cons, List.mem_cons]
      exact Or.inr (htm x hx).2
    · obtain ⟨t, ht, htn, htm⟩ := ih (acc ++ [fd.rhs])
      refine ⟨fd.rhs :: t, ?_, ?_, ?_⟩
      · rw [hstep, h, ht]; simp
      · exact List.nodup_cons.mpr ⟨fun hmem => (htm _ hmem).1 (by simp), htn⟩
      · intro x hx
        rcases List.mem_cons.mp hx with rfl | hx2
        · exact ⟨hn, by simp⟩
        · refine ⟨fun hacc => (htm x hx2).1 (by simp [hacc]), ?_⟩
          simp only [List.map_cons, List.mem_cons]
          exact Or.inr (htm x hx2).2

theorem closureStep_of_length_eq {fds : List FD} {acc : List String}
    (h : (closureStep fds acc).length = acc.length) : closureStep fds acc = acc := by
  obtain ⟨t, ht, -, -⟩ := closureStep_eq_append fds acc
  rw [ht] at h ⊢
  have : t = [] := by
    rw [List.length_append] at h
    exact List.eq_nil_of_length_eq_zero (by omega)
  simp [this]

theorem closed_of_closureStep_fix {fds : List FD} :
    ∀ {clo : List String}, closureStep fds clo = clo →
      ∀ fd ∈ fds, (∀ a ∈ fd.lhs, a ∈ clo) → fd.rhs ∈ clo := by
  induction fds with
  | nil => simp
  | cons fd0 fds ih =>
    intro clo h fd hfd hlhs
    have hstep : closureStep (fd0 :: fds) clo = closureStep fds (closureStep1 clo fd0) :=
      rfl
    have h1 : closureStep1 clo fd0 = clo := by
      rcases closureStep1_cases clo fd0 with h1 | ⟨h1, -⟩
      · exact h1
      · exfalso
        obtain ⟨t, ht, -, -⟩ := closureStep_eq_append fds (clo ++ [fd0.rhs])
        rw [hstep, h1, ht] at h
        have := congrArg List.length h
        simp [List.length_append] at this
    have h2 : closureStep fds clo = clo := by rw [hstep, h1] at h; exact h
    rcases List.mem_cons.mp hfd with rfl | hfd2
    · by_contra hrhs
      have hcond : (fd.lhs.all (fun a => decide (a ∈ clo)) &&
          !(decide (fd.rhs ∈ clo))) = true := by
        simp only [Bool.and_eq_true, List.all_eq_true]
        exact ⟨fun a ha => by simpa using hlhs a ha, by simpa using hrhs⟩
      have : closureStep1 clo fd = clo ++ [fd.rhs] := by
        unfold closureStep1
        rw [if_pos hcond]
      rw [this] at h1
      have := congrArg List.length h1
      simp at this
    · exact ih h2 fd hfd2 hlhs

theorem closureStep1_subset_closed {F clo : List String} {fd : FD}
    (hcl : (∀ a ∈ fd.lhs, a ∈ F) → fd.rhs ∈ F) (hsub : ∀ x ∈ clo, x ∈ F) :
    ∀ x ∈ closureStep1 clo fd, x ∈ F := by
  unfold closureStep1
  split
  · rename_i h
    have h1 := ((Bool.and_eq_true _ _).mp h).1
    intro x hx
    rcases List.mem_append.mp hx with hx | hx
    · exact hsub x hx
    · have hxr : x = fd.rhs := by simpa using hx
      subst hxr
      exact hcl fun a ha => hsub a (by simpa using List.all_eq_true.mp h1 a ha)
  · exact hsub

theorem closureStep_subset_closed {fds : List FD} {F : List String}
    (hcl : ∀ fd ∈ fds, (∀ a ∈ fd.lhs, a ∈ F) → fd.rhs ∈ F) :
    ∀ {clo}, (∀ x ∈ clo, x ∈ F) → ∀ x ∈ closureStep fds clo, x ∈ F := by
  induction fds with
  | nil => exact fun h => h
  | cons fd fds ih =>
    intro clo hsub
    have hstep : closureStep (fd :: fds) clo = closureStep fds (closureStep1 clo fd) :=
      rfl
    rw [hstep]
    exact ih (fun fd' h' => hcl fd' (by simp [h']))
      (closureStep1_subset_closed (hcl fd (by simp)) hsub)

theorem computeClosureAux_eq_append (fds : List FD) :
    ∀ (n : ℕ) (clo : List String), ∃ t, computeClosureAux fds n clo = clo ++ t ∧
      ∀ x ∈ t, x ∈ fds.map FD.rhs := by
  intro n
  induction n with
  | zero => exact fun clo => ⟨[], by simp [computeClosureAux]⟩
  | succ n ih =>
    intro clo
    show ∃ t, (if (closureStep fds clo).length = clo.length then clo
      else computeClosureAux fds n (closureStep fds clo)) = clo ++ t ∧
      ∀ x ∈ t, x ∈ fds.map FD.rhs
    split
    · exact ⟨[], by simp⟩
    · obtain ⟨t1, ht1, -, htm1⟩ := closureStep_eq_append fds clo
      obtain ⟨t2, ht2, htm2⟩ := ih (closureStep fds clo)
      refine ⟨t1 ++ t2, ?_, ?_⟩
      · rw [ht2, ht1, List.append_assoc]
      · intro x hx
        rcases List.mem_append.mp hx with hx | hx
        · exact (htm1 x hx).2
        · exact htm2 x hx

theorem computeClosureAux_nodup (fds : List FD) :
    ∀ (n : ℕ) {clo : List String}, clo.Nodup → (computeClosureAux fds n clo).Nodup := by
  intro n
  induction n with
  | zero => exact fun h => h
  | succ n ih =>
    intro clo h
    show (if (closureStep fds clo).length = clo.length then clo
      else computeClosureAux fds n (closureStep fds clo)).Nodup
    split
    · exact h
    · apply ih
      obtain ⟨t, ht, htn, htm⟩ := closureStep_eq_append fds clo
      rw [ht, List.nodup_append]
      exact ⟨h, htn, fun x hx hxt => (htm x hxt).1 hx⟩

theorem computeClosureAux_subset_closed {fds : List FD} {F : List String}
    (hcl : ∀ fd ∈ fds, (∀ a ∈ fd.lhs, a ∈ F) → fd.rhs ∈ F) :
    ∀ (n : ℕ) {clo : List String}, (∀ x ∈ clo, x ∈ F) →
      ∀ x ∈ computeClosureAux fds n clo, x ∈ F := by
  intro n
  induction n with
  | zero => exact fun h => h
  | succ n ih =>
    intro clo hsub
    show ∀ x ∈ (if (closureStep fds clo).length = clo.length then clo
      else computeClosureAux fds n (closureStep fds clo)), x ∈ F
    split
    · exact hsub
    · exact ih (closureStep_subset_closed hcl hsub)

theorem computeClosureAux_fix (fds : List FD) :
    ∀ (n : ℕ) {clo : List String}, clo.Nodup →
      ((fds.map FD.rhs).toFinset \ clo.toFinset).card < n →
      closureStep fds (computeClosureAux fds n clo) = computeClosureAux fds n clo := by
  intro n
  induction n with
  | zero => intro clo _ h; omega
  | succ n ih =>
    intro clo hnd hcard
    show closureStep fds (if (closureStep fds clo).length = clo.length then clo
      else computeClosureAux fds n (closureStep fds clo)) =
      (if (closureStep fds clo).length = clo.length then clo
      else computeClosureAux fds n (closureStep fds clo))
    split
    · rename_i hlen
      exact closureStep_of_length_eq hlen
    · rename_i hlen
      obtain ⟨t, ht, htn, htm⟩ := closureStep_eq_append fds clo
      have htne : t ≠ [] := by
        intro h0
        rw [h0, List.append_nil] at ht
        exact hlen (by rw [ht])
      apply ih
      · rw [ht, List.nodup_append]
        exact ⟨hnd, htn, fun x hx hxt => (htm x hxt).1 hx⟩
      · have hsubt : t.toFinset ⊆ (fds.map FD.rhs).toFinset \ clo.toFinset := by
          intro x hx
          have hxt := List.mem_toFinset.mp hx
          rw [Finset.mem_sdiff]
          exact ⟨List.mem_toFinset.mpr (htm x hxt).2,
            fun hc => (htm x hxt).1 (List.mem_toFinset.mp hc)⟩
        have hset : (fds.map FD.rhs).toFinset \ (closureStep fds clo).toFinset
            = ((fds.map FD.rhs).toFinset \ clo.toFinset) \ t.toFinset := by
          rw [ht]
          ext x
          simp only [Finset.mem_sdiff, List.toFinset_append, Finset.mem_union,
            List.mem_toFinset]
          tauto
        have hc1 : t.toFinset.card ≤ ((fds.map FD.rhs).toFinset \ clo.toFinset).card :=
          Finset.card_le_card hsubt
        have hc2 : t.toFinset.card = t.length := List.toFinset_card_of_nodup htn
        have hc3 : 0 < t.length := List.length_pos.mpr htne
        rw [hset, Finset.card_sdiff hsubt]
        omega

theorem computeClosureAux_of_fix {fds : List FD} {clo : List String}
    (h : closureStep fds clo = clo) (n : ℕ) :
    computeClosureAux fds (n + 1) clo = clo := by
  show (if (closureStep fds clo).length = clo.length then clo
    else computeClosureAux fds n (closureStep fds clo)) = clo
  rw [if_pos (by rw [h])]

theorem computeClosure_fix (attributes allAttributes : List String) (fds : List FD) :
    closureStep fds (computeClosure attributes allAttributes fds) =
      computeClosure attributes allAttributes fds := by
  apply computeClosureAux_fix
  · exact nodup_jsSetOfList attributes
  · calc ((fds.map FD.rhs).toFinset \ (jsSetOfList attributes).toFinset).card
        ≤ (fds.map FD.rhs).toFinset.card := Finset.card_le_card Finset.sdiff_subset
      _ ≤ (fds.map FD.rhs).length := List.toFinset_card_le _
      _ = fds.length := by simp
      _ < fds.length + 1 := Nat.lt_succ_self _

theorem subset_computeClosure (attributes allAttributes : List String) (fds : List FD) :
    ∀ x ∈ attributes, x ∈ computeClosure attributes allAttributes fds := by
  intro x hx
  obtain ⟨t, ht, -⟩ := computeClosureAux_eq_append fds (fds.length + 1)
    (jsSetOfList attributes)
  unfold computeClosure
  rw [ht]
  exact List.mem_append.mpr (Or.inl (mem_jsSetOfList.mpr hx))

theorem computeClosure_nodup (attributes allAttributes : List String) (fds : List FD) :
    (computeClosure attributes allAttributes fds).Nodup :=
  computeClosureAux_nodup fds _ (nodup_jsSetOfList attributes)

theorem computeClosure_subsets (attributes allAttributes : List String) (fds : List FD) :
    ∀ x ∈ computeClosure attributes allAttributes fds,
      x ∈ attributes ∨ x ∈ fds.map FD.rhs := by
  intro x hx
  obtain ⟨t, ht, htm⟩ := computeClosureAux_eq_append fds (fds.length + 1)
    (jsSetOfList attributes)
  unfold computeClosure at hx
  rw [ht] at hx
  rcases List.mem_append.mp hx with h | h
  · exact Or.inl (mem_jsSetOfList.mp h)
  · exact Or.inr (htm x h)

theorem computeClosure_subset_closed {fds : List FD} {F : List String}
    (hcl : ∀ fd ∈ fds, (∀ a ∈ fd.lhs, a ∈ F) → fd.rhs ∈ F)
    {attributes : List String} (hseed : ∀ x ∈ attributes, x ∈ F)
    (allAttributes : List String) :
    ∀ x ∈ computeClosure attributes allAttributes fds, x ∈ F :=
  computeClosureAux_subset_closed hcl _ (fun x hx => hseed x (mem_jsSetOfList.mp hx))

/-- Claim C6: for every seed, `allAttributes` value, and FD set, the closure
contains every attribute of the seed (monotonicity `closure(X) ⊇ X`) and
applying `computeClosure` to its own result returns the same list
(idempotence `closure(closure(X)) = closure(X)`). -/
theorem c6_closure_monotone_idempotent :
    (∀ (x a : List String) (fds : List FD), x ⊆ computeClosure x a fds) ∧
    (∀ (x a : List String) (fds : List FD),
      computeClosure (computeClosure x a fds) a fds = computeClosure x a fds) := by
  constructor
  · intro x a fds b hb
    exact subset_computeClosure x a fds b hb
  · intro x a fds
    have hnd := computeClosure_nodup x a fds
    have hfix := computeClosure_fix x a fds
    show computeClosureAux fds (fds.length + 1) (jsSetOfList (computeClosure x a fds))
      = computeClosure x a fds
    rw [jsSetOfList_eq_self hnd]
    exact computeClosureAux_of_fix hfix _

/-! ## Lemmas: candidate keys -/

theorem mem_sizeLoop {attributes : List String} {fds : List FD}
    {mustInclude otherAttrs : List String} :
    ∀ {ks : List ℕ} {K : List String},
      K ∈ sizeLoop attributes fds mustInclude otherAttrs ks →
      isSuperkey attributes fds K = true ∧ isMinimal attributes fds K = true := by
  intro ks
  induction ks with
  | nil => intro K h; simp [sizeLoop] at h
  | cons k ks ih =>
    intro K h
    rw [sizeLoop] at h
    split at h
    · exact ih h
    · obtain ⟨combo, hc, rfl⟩ := List.mem_map.mp h
      have hcond := (List.mem_filter.mp hc).2
      exact ⟨((Bool.and_eq_true _ _).mp hcond).1, ((Bool.and_eq_true _ _).mp hcond).2⟩

theorem mustInclude_erase_not_superkey {attributes : List String} {fds : List FD}
    (hsk : isSuperkey attributes fds (findMustIncludeAttributes attributes fds) = true) :
    ∀ a ∈ findMustIncludeAttributes attributes fds,
      isSuperkey attributes fds
        ((findMustIncludeAttributes attributes fds).filter
          (fun b => decide (b ≠ a))) = false := by
  intro a ha
  have hanr : a ∉ fds.map FD.rhs := by
    have h2 := (List.mem_filter.mp ha).2
    simpa using h2
  have haM : a ∈ attributes := (List.mem_filter.mp ha).1
  set M := findMustIncludeAttributes attributes fds with hMdef
  set M' := M.filter (fun b => decide (b ≠ a)) with hM'def
  set C := computeClosure M attributes fds with hCdef
  set C' := computeClosure M' attributes fds with hC'def
  have haM' : a ∉ M' := by
    intro h
    have := (List.mem_filter.mp h).2
    simp at this
  have haC' : a ∉ C' := by
    intro hc
    rcases computeClosure_subsets M' attributes fds a hc with h | h
    · exact haM' h
    · exact hanr h
  have hsub : ∀ x ∈ C', x ∈ C := by
    apply computeClosure_subset_closed
    · exact closed_of_closureStep_fix (computeClosure_fix M attributes fds)
    · intro x hx
      exact subset_computeClosure M attributes fds x (List.mem_filter.mp hx).1
  have haC : a ∈ C := subset_computeClosure M attributes fds a ha
  have hss : C'.toFinset ⊂ C.toFinset := by
    rw [Finset.ssubset_iff_subset_ne]
    constructor
    · intro x hx
      exact List.mem_toFinset.mpr (hsub x (List.mem_toFinset.mp hx))
    · intro heq
      exact haC' (List.mem_toFinset.mp (heq ▸ List.mem_toFinset.mpr haC))
  have hlt : C'.length < C.length := by
    rw [← List.toFinset_card_of_nodup (computeClosure_nodup M attributes fds),
      ← List.toFinset_card_of_nodup (computeClosure_nodup M' attributes fds)]
    exact Finset.card_lt_card hss
  have hCl : C.length = attributes.length := by
    have := of_decide_eq_true hsk
    exact this
  simp only [isSuperkey, decide_eq_false_iff_not]
  rw [← hC'def]
  omega

/-- Claim C4 (amended): when the all-attributes fallback is not used (the
pre-fallback search returns at least one key), every key in the returned list
satisfies the minimality law: it is a superkey and removing any single
attribute breaks the superkey property.  (The counterexample shows the
fallback key itself can violate the law.) -/
theorem c4_minimality_without_fallback (attributes : List String) (fds : List FD)
    (hpre : findCandidateKeysPre attributes fds ≠ []) :
    ∀ K ∈ findCandidateKeys attributes fds,
      isSuperkey attributes fds K = true ∧
      ∀ a ∈ K, isSuperkey attributes fds
        (K.filter (fun b => decide (b ≠ a))) = false := by
  intro K hK
  have hne : (findCandidateKeysPre attributes fds).isEmpty = false := by
    cases h : findCandidateKeysPre attributes fds
    · exact absurd h hpre
    · rfl
  rw [findCandidateKeys] at hK
  rw [hne] at hK
  simp only [Bool.false_eq_true, if_false] at hK
  rw [findCandidateKeysPre] at hK
  by_cases hsk : isSuperkey attributes fds (findMustIncludeAttributes attributes fds) = true
  · rw [if_pos hsk] at hK
    have hKeq : K = findMustIncludeAttributes attributes fds := by simpa using hK
    subst hKeq
    exact ⟨hsk, mustInclude_erase_not_superkey hsk⟩
  · rw [if_neg hsk] at hK
    obtain ⟨h1, h2⟩ := mem_sizeLoop hK
    refine ⟨h1, ?_⟩
    intro a ha
    have := List.all_eq_true.mp h2 a ha
    simpa using this

/-- Witness for `c4_minimality_without_fallback` at attributes `[A, B]` with
the single FD `A → B`: the discovered key `[A]` is a superkey and dropping
`A` breaks the superkey property. -/
theorem c4_minimality_without_fallback_witness :
    findCandidateKeysPre ["A", "B"] [⟨["A"], "B", JSVal.num 1⟩] ≠ [] ∧
    isSuperkey ["A", "B"] [⟨["A"], "B", JSVal.num 1⟩]
      (["A"].filter (fun b => decide (b ≠ "A"))) = false :=
  ⟨by decide,
   (c4_minimality_without_fallback ["A", "B"] [⟨["A"], "B", JSVal.num 1⟩]
      (by decide) ["A"] (by decide)).2 "A" (by decide)⟩

/-- Claim C8: the checker's `findPrimeAttributes` and the decomposer's
`getPrimeAttributes` compute the identical list from the same candidate-key
input, and that list's members are exactly the attributes belonging to some
candidate key (the union of all candidate keys). -/
theorem c8_prime_attributes_agree (candidateKeys : List (List String)) :
    findPrimeAttributes candidateKeys = getPrimeAttributes candidateKeys ∧
    ∀ a, a ∈ findPrimeAttributes candidateKeys ↔ ∃ K ∈ candidateKeys, a ∈ K := by
  constructor
  · rfl
  · intro a
    unfold findPrimeAttributes
    have main : ∀ (ks : List (List String)) (acc : List String),
        a ∈ ks.foldl (fun prime key => key.foldl jsSetInsert prime) acc ↔
          a ∈ acc ∨ ∃ K ∈ ks, a ∈ K := by
      intro ks
      induction ks with
      | nil => simp
      | cons k ks ih =>
        intro acc
        rw [List.foldl_cons, ih, mem_foldl_jsSetInsert]
        simp [or_assoc]
    rw [main]
    simp

/-- Claim C7 (amended): the standalone checks do not form a ladder (the
counterexample gives `check3NF` satisfied with `check2NF` violated), but
`analyzeAllForms` itself never reports a `currentForm` of a level unless
every check up to that level is satisfied: `3NF` requires all three checks,
`2NF` requires 1NF and 2NF, and `1NF` requires 1NF. -/
theorem c7_analyzeAllForms_ladder (fds : List FD)
    (candidateKeys : List (List String))
    (sampleData : List (List (String × CellValue))) :
    (decide ((analyzeAllForms fds candidateKeys sampleData).currentForm = "3NF") ≤
      ((analyzeAllForms fds candidateKeys sampleData).nf1.satisfied &&
       (analyzeAllForms fds candidateKeys sampleData).nf2.satisfied &&
       (analyzeAllForms fds candidateKeys sampleData).nf3.satisfied)) ∧
    (decide ((analyzeAllForms fds candidateKeys sampleData).currentForm = "2NF") ≤
      ((analyzeAllForms fds candidateKeys sampleData).nf1.satisfied &&
       (analyzeAllForms fds candidateKeys sampleData).nf2.satisfied)) ∧
    (decide ((analyzeAllForms fds candidateKeys sampleData).currentForm = "1NF") ≤
      (analyzeAllForms fds candidateKeys sampleData).nf1.satisfied) := by
  unfold analyzeAllForms
  cases h1 : (check1NF sampleData).satisfied <;>
    cases h2 : (check2NF fds candidateKeys).satisfied <;>
    cases h3 : (check3NF fds candidateKeys).satisfied <;>
    simp [h1, h2, h3]

/-! ## Lemmas: Stage-2 decomposition -/

theorem mem_insertSorted {a x : String} :
    ∀ {l : List String}, x ∈ insertSorted a l ↔ x = a ∨ x ∈ l := by
  intro l
  induction l with
  | nil => simp [insertSorted]
  | cons b bs ih =>
    rw [insertSorted]
    split
    · simp
    · rw [List.mem_cons, ih, List.mem_cons]
      tauto

theorem mem_sortStrings {x : String} :
    ∀ {l : List String}, x ∈ sortStrings l ↔ x ∈ l := by
  intro l
  induction l with
  | nil => simp [sortStrings]
  | cons a as ih =>
    rw [sortStrings, mem_insertSorted, ih, List.mem_cons]

theorem addPartial_preserves {big : List FD} {acc : List (String × DepGroup)}
    {fd : FD} (hfd : fd ∈ big)
    (hacc : ∀ p ∈ acc, (∃ f ∈ big, p.2.lhs = sortStrings f.lhs) ∧
      ∀ r ∈ p.2.rhs, ∃ f ∈ big, r = f.rhs) :
    ∀ p ∈ addPartial acc fd, (∃ f ∈ big, p.2.lhs = sortStrings f.lhs) ∧
      ∀ r ∈ p.2.rhs, ∃ f ∈ big, r = f.rhs := by
  intro p hp
  simp only [addPartial] at hp
  split at hp
  · obtain ⟨q, hq, hpe⟩ := List.mem_map.mp hp
    subst hpe
    split
    · refine ⟨(hacc q hq).1, ?_⟩
      intro r hr
      rcases List.mem_append.mp hr with h | h
      · exact (hacc q hq).2 r h
      · rw [List.mem_singleton] at h
        exact ⟨fd, hfd, h⟩
    · exact hacc q hq
  · rcases List.mem_append.mp hp with h | h
    · exact hacc p h
    · rw [List.mem_singleton] at h
      subst h
      refine ⟨⟨fd, hfd, rfl⟩, ?_⟩
      intro r hr
      rw [List.mem_singleton] at hr
      exact ⟨fd, hfd, hr⟩

theorem groupPartial_from {pds : List FD} :
    ∀ p ∈ groupPartial pds, (∃ f ∈ pds, p.2.lhs = sortStrings f.lhs) ∧
      ∀ r ∈ p.2.rhs, ∃ f ∈ pds, r = f.rhs := by
  have main : ∀ (l : List FD) (acc : List (String × DepGroup)),
      (∀ f ∈ l, f ∈ pds) →
      (∀ p ∈ acc, (∃ f ∈ pds, p.2.lhs = sortStrings f.lhs) ∧
        ∀ r ∈ p.2.rhs, ∃ f ∈ pds, r = f.rhs) →
      ∀ p ∈ l.foldl addPartial acc, (∃ f ∈ pds, p.2.lhs = sortStrings f.lhs) ∧
        ∀ r ∈ p.2.rhs, ∃ f ∈ pds, r = f.rhs := by
    intro l
    induction l with
    | nil => exact fun acc _ hacc => hacc
    | cons fd l ih =>
      intro acc hl hacc
      rw [List.foldl_cons]
      exact ih _ (fun f hf => hl f (by simp [hf]))
        (addPartial_preserves (hl fd (by simp)) hacc)
  exact main pds [] (fun f hf => hf) (by simp)

theorem addPartial_covers (acc : List (String × DepGroup)) (fd : FD) :
    ∃ p ∈ addPartial acc fd, fd.rhs ∈ p.2.rhs := by
  simp only [addPartial]
  split
  · rename_i h
    obtain ⟨q, hq, hqk⟩ := List.any_eq_true.mp h
    refine ⟨(q.1, ⟨q.2.lhs, q.2.rhs ++ [fd.rhs]⟩), ?_, by simp⟩
    exact List.mem_map.mpr ⟨q, hq, by rw [if_pos (by simpa using hqk)]⟩
  · exact ⟨(String.intercalate "|" (sortStrings fd.lhs),
      ⟨sortStrings fd.lhs, [fd.rhs]⟩), by simp, by simp⟩

theorem addPartial_mem_rhs_preserved {acc : List (String × DepGroup)} {fd : FD}
    {r : String} (h : ∃ p ∈ acc, r ∈ p.2.rhs) :
    ∃ p ∈ addPartial acc fd, r ∈ p.2.rhs := by
  obtain ⟨p, hp, hr⟩ := h
  simp only [addPartial]
  split
  · by_cases hk : p.1 = String.intercalate "|" (sortStrings fd.lhs)
    · refine ⟨(p.1, ⟨p.2.lhs, p.2.rhs ++ [fd.rhs]⟩), ?_, by simp [hr]⟩
      exact List.mem_map.mpr ⟨p, hp, by rw [if_pos hk]⟩
    · refine ⟨p, ?_, hr⟩
      exact List.mem_map.mpr ⟨p, hp, by rw [if_neg hk]⟩
  · exact ⟨p, by simp [hp], hr⟩

theorem foldl_addPartial_mem_rhs_preserved {r : String} :
    ∀ (l : List FD) (acc : List (String × DepGroup)),
      (∃ p ∈ acc, r ∈ p.2.rhs) → ∃ p ∈ l.foldl addPartial acc, r ∈ p.2.rhs := by
  intro l
  induction l with
  | nil => exact fun acc h => h
  | cons fd l ih => exact fun acc h => ih _ (addPartial_mem_rhs_preserved h)

theorem groupPartial_covers {pds : List FD} :
    ∀ fd ∈ pds, ∃ p ∈ groupPartial pds, fd.rhs ∈ p.2.rhs := by
  have main : ∀ (l : List FD) (acc : List (String × DepGroup)) (fd : FD), fd ∈ l →
      ∃ p ∈ l.foldl addPartial acc, fd.rhs ∈ p.2.rhs := by
    intro l
    induction l with
    | nil => intro acc fd h; cases h
    | cons f l ih =>
      intro acc fd h
      rw [List.foldl_cons]
      rcases List.mem_cons.mp h with rfl | h2
      · exact foldl_addPartial_mem_rhs_preserved l _ (addPartial_covers acc fd)
      · exact ih _ fd h2
  exact fun fd h => main pds [] fd h

theorem mkPartialTables_attrs {base : String} :
    ∀ {l : List (String × DepGroup)} {i : ℕ} {t : Table},
      t ∈ mkPartialTables base i l → ∃ p ∈ l, t.attributes = p.2.lhs ++ p.2.rhs := by
  intro l
  induction l with
  | nil => intro i t h; cases h
  | cons p l ih =>
    intro i t h
    rw [mkPartialTables] at h
    rcases List.mem_cons.mp h with rfl | h2
    · exact ⟨p, by simp, rfl⟩
    · obtain ⟨q, hq, he⟩ := ih h2
      exact ⟨q, by simp [hq], he⟩

theorem mem_mkPartialTables {base : String} :
    ∀ {l : List (String × DepGroup)} {i : ℕ} {p : String × DepGroup}, p ∈ l →
      ∃ t ∈ mkPartialTables base i l, t.attributes = p.2.lhs ++ p.2.rhs := by
  intro l
  induction l with
  | nil => intro i p h; cases h
  | cons q l ih =>
    intro i p h
    rw [mkPartialTables]
    rcases List.mem_cons.mp h with rfl | h2
    · refine ⟨_, List.mem_cons_self _ _, rfl⟩
    · obtain ⟨t, ht, he⟩ := @ih (i + 1) p h2
      exact ⟨t, List.mem_cons_of_mem _ ht, he⟩

theorem partialD_lhs_subset {prime : List String} {keys : List (List String)}
    {fd : FD} (h : isPartialDependencyD prime keys fd = true) :
    ∃ key ∈ keys, ∀ b ∈ fd.lhs, b ∈ key := by
  unfold isPartialDependencyD at h
  split at h
  · obtain ⟨key, hk, hcond⟩ := List.any_eq_true.mp h
    refine ⟨key, hk, fun b hb => ?_⟩
    have h1 := ((Bool.and_eq_true _ _).mp hcond).1
    simpa using List.all_eq_true.mp h1 b hb
  · cases h

/-- Claim C9 (amended): the disjointness half fails (see the counterexample:
two spawned tables may share an rhs attribute determined by both lhs sets),
but the union half holds for well-formed inputs: when every candidate key and
every FD rhs lies within the original schema, the union of the attribute sets
of all tables returned by `decomposeTo2NF` equals the original attribute set. -/
theorem c9_union_preserved (schema : Schema) (fds : List FD)
    (candidateKeys : List (List String))
    (hkeys : ∀ K ∈ candidateKeys, ∀ a ∈ K, a ∈ schema.attributes)
    (hfds : ∀ fd ∈ fds, fd.rhs ∈ schema.attributes) :
    (((decomposeTo2NF schema fds candidateKeys).tables.map
      Table.attributes).flatten).toFinset = schema.attributes.toFinset := by
  have hpdeps : ∀ fd ∈ fds.filter (fun fd =>
      isPartialDependencyD (getPrimeAttributes candidateKeys) candidateKeys fd),
      (∀ b ∈ fd.lhs, b ∈ schema.attributes) ∧ fd.rhs ∈ schema.attributes := by
    intro fd hfd
    have hmem := (List.mem_filter.mp hfd).1
    have hcond := (List.mem_filter.mp hfd).2
    obtain ⟨key, hk, hsub⟩ := partialD_lhs_subset (by simpa using hcond)
    exact ⟨fun b hb => hkeys key hk b (hsub b hb), hfds fd hmem⟩
  have htable : (decomposeTo2NF schema fds candidateKeys).tables =
      mkPartialTables schema.tableName 1
        (groupPartial (fds.filter (fun fd =>
          isPartialDependencyD (getPrimeAttributes candidateKeys) candidateKeys fd))) ++
      [⟨schema.tableName,
        (jsSetOfList schema.attributes).filter (fun a =>
          !(decide (a ∈ ((groupPartial (fds.filter (fun fd =>
            isPartialDependencyD (getPrimeAttributes candidateKeys) candidateKeys fd))).map
              (fun p => p.2.rhs)).flatten))),
        candidateKeys.head?, []⟩] := rfl
  apply Finset.ext
  intro a
  simp only [List.mem_toFinset, List.mem_flatten, List.mem_map]
  constructor
  · rintro ⟨attrsT, ⟨t, ht, rfl⟩, ha⟩
    rw [htable] at ht
    rcases List.mem_append.mp ht with hsp | hmain
    · obtain ⟨p, hp, he⟩ := mkPartialTables_attrs hsp
      obtain ⟨⟨f, hf, hlhs⟩, hrhs⟩ := groupPartial_from p hp
      rw [he] at ha
      rcases List.mem_append.mp ha with h | h
      · rw [hlhs, mem_sortStrings] at h
        exact (hpdeps f hf).1 a h
      · obtain ⟨f', hf', rfl⟩ := hrhs a h
        exact (hpdeps f' hf').2
    · rw [List.mem_singleton] at hmain
      subst hmain
      exact mem_jsSetOfList.mp (List.mem_filter.mp ha).1
  · intro ha
    by_cases hrem : a ∈ ((groupPartial (fds.filter (fun fd =>
        isPartialDependencyD (getPrimeAttributes candidateKeys) candidateKeys fd))).map
          (fun p => p.2.rhs)).flatten
    · obtain ⟨rl, hrl, har⟩ := List.mem_flatten.mp hrem
      obtain ⟨p, hp, hpe⟩ := List.mem_map.mp hrl
      subst hpe
      obtain ⟨t, ht, he⟩ := mem_mkPartialTables hp
      refine ⟨t.attributes, ⟨t, ?_, rfl⟩, ?_⟩
      · rw [htable]
        exact List.mem_append.mpr (Or.inl ht)
      · rw [he]
        exact List.mem_append.mpr (Or.inr har)
    · have hmt : (⟨schema.tableName,
          (jsSetOfList schema.attributes).filter (fun x =>
            !(decide (x ∈ ((groupPartial (fds.filter (fun fd =>
              isPartialDependencyD (getPrimeAttributes candidateKeys)
                candidateKeys fd))).map
                (fun p => p.2.rhs)).flatten))),
          candidateKeys.head?, []⟩ : Table) ∈
          (decomposeTo2NF schema fds candidateKeys).tables := by
        rw [htable]
        exact List.mem_append.mpr (Or.inr (by simp))
      refine ⟨_, ⟨_, hmt, rfl⟩, ?_⟩
      exact List.mem_filter.mpr ⟨mem_jsSetOfList.mpr ha, by simpa using hrem⟩

/-- Witness for `c9_union_preserved`: schema `T(A, B, C)`, candidate key
`{A, B}`, FD `A → C`; the decomposition spawns `T_1(A, C)` and keeps
`T(A, B)`, whose attribute union is exactly `{A, B, C}`. -/
theorem c9_union_preserved_witness :
    (((decomposeTo2NF sch9w fds7 keys7).tables.map
      Table.attributes).flatten).toFinset = sch9w.attributes.toFinset :=
  c9_union_preserved sch9w fds7 keys7 (by decide) (by decide)
